import Mathlib

/-!
Shallow embedding of the gnosis/reth transaction-pool core
(crates/txpool/src/pool/{score,account,transactions,pool}.rs,
crates/txpool/src/peers/peer.rs, bin/txpool/src/grpc_txpool.rs).

Machine integers (U64/U256) are modelled as Nat; U256 saturating_sub is
Nat subtraction (which truncates at zero), saturating_add is plain
addition (overflow is not reachable at the values used in the claims).
Rust panics (unwrap/expect on None) are modelled by Option-valued
operations returning none.  HashMap/HashSet are modelled as association
lists / lists with set semantics; HashMap iteration order is modelled as
the insertion order of the association list.
-/

namespace Reth

abbrev Hash := Nat

abbrev Address := Nat

/-- Transaction payload (reth_core::Transaction as used by the txpool:
hash, recovered author, nonce, gas_price, gas_limit, value).  The core
crate version holding `cost`/`max_cost` is not part of the source tree
(only its callers are), so the record keeps exactly the accessors the
pool reads. -/
structure Transaction where
  hash : Nat
  author : Nat
  nonce : Nat
  gas_price : Nat
  gas_limit : Nat
  value : Nat
deriving Repr, DecidableEq

/-- Modelled from the spec: the core Transaction `max_cost` accessor is not
under src/ (only its callers in the txpool crate are); the spec defines it as
`gas_limit * gas_cap + value`, the gas cap of a legacy transaction being its
gas price.  `Account::insert` calls it `cost()`, `block_update` calls it
`max_cost()`; both denote this quantity. -/
def Transaction.cost (tx : Transaction) : Nat :=
  tx.gas_limit * tx.gas_price + tx.value

def dummyTx : Transaction := ⟨0, 0, 0, 0, 0, 0⟩

/-- interfaces::world_state::AccountInfo -/
structure AccountInfo where
  nonce : Nat
  balance : Nat
deriving Repr, DecidableEq

/-- pool/score.rs ScoreTransaction: score plus the shared tx.  -/
structure ScoreTransaction where
  score : Nat
  tx : Transaction
deriving Repr, DecidableEq

/-- ScoreTransaction::new — the score is the gas price of the payload
(legacy and access-list payloads both carry `gas_price`; the effective-fee
computation is a TODO in the source). -/
def ScoreTransaction.new (tx : Transaction) : ScoreTransaction :=
  { score := tx.gas_price, tx := tx }

def ScoreTransaction.hash (s : ScoreTransaction) : Hash := s.tx.hash

/-- integer comparison (Rust `Ord::cmp` on unsigned integers). -/
def cmpNat (a b : Nat) : Ordering :=
  if a < b then Ordering.lt else if a = b then Ordering.eq else Ordering.gt

/-- `impl Ord for ScoreTransaction` (pool/score.rs):
`other.score.cmp(&self.score).then(other.hash().cmp(&self.hash()))` —
both components are reversed, so the Ord-greatest element is the one with
the smallest score (ties: smallest hash). -/
def cmpST (a b : ScoreTransaction) : Ordering :=
  (cmpNat b.score a.score).then (cmpNat b.tx.hash a.tx.hash)

/-- `a` is less-or-equal to `b` in the ScoreTransaction Ord. -/
def stLe (a b : ScoreTransaction) : Bool :=
  !(cmpST a b == Ordering.gt)

def maxST (a b : ScoreTransaction) : ScoreTransaction :=
  if stLe a b then b else a

/-- std BinaryHeap modelled as a list of its elements; `heapMax` is the
element `peek`/`pop` operate on: the greatest element of the Ord. -/
def heapMax : List ScoreTransaction → Option ScoreTransaction
  | [] => none
  | x :: xs => some (xs.foldl maxST x)

/-- pool/score.rs ByScore: the heap plus the tombstone set. -/
structure ByScore where
  sorting : List ScoreTransaction
  pending_removal : List Hash
deriving Repr, DecidableEq

def ByScore.peek (b : ByScore) : Option ScoreTransaction :=
  heapMax b.sorting

def ByScore.push (b : ByScore) (t : ScoreTransaction) : ByScore :=
  { b with sorting := t :: b.sorting }

/-- The while-loop inside ByScore::remove, fuel-recursive: after popping
the matching top, keep popping while the top is a tombstoned hash.
Tombstones are not removed from the pending set by the loop, faithful to
the source.  Each iteration erases one element of the list, so fuel equal
to the list length makes the fuel branch unreachable. -/
def popPendingAux (pending : List Hash) :
    Nat → List ScoreTransaction → List ScoreTransaction
  | 0, sorting => sorting
  | Nat.succ fuel, sorting =>
    match heapMax sorting with
    | none => sorting
    | some t =>
      if t.tx.hash ∈ pending then popPendingAux pending fuel (sorting.erase t)
      else sorting

def popPendingLoop (sorting : List ScoreTransaction) (pending : List Hash) :
    List ScoreTransaction :=
  popPendingAux pending sorting.length sorting

/-- ByScore::remove.  The source starts with
`self.sorting.peek().unwrap()`: on an empty heap this unwrap panics,
modelled as `none`.  If the top matches the hash it is popped and the
tombstoned tops after it are popped too; otherwise the hash is only
tombstoned. -/
def ByScore.remove (b : ByScore) (hash : Hash) : Option ByScore :=
  match b.peek with
  | none => none
  | some top =>
    if top.tx.hash = hash then
      some { b with sorting := popPendingLoop (b.sorting.erase top) b.pending_removal }
    else
      some { b with pending_removal :=
        if hash ∈ b.pending_removal then b.pending_removal else hash :: b.pending_removal }

def ByScore.pendingRemovalCount (b : ByScore) : Nat :=
  b.pending_removal.length

/-- ByScore::recreate_heap: rebuild from non-tombstoned entries, clear the
tombstone set. -/
def ByScore.recreate_heap (b : ByScore) : ByScore :=
  { sorting := b.sorting.filter (fun t => !(b.pending_removal.contains t.tx.hash)),
    pending_removal := [] }

/-- ByScore::pending_removal_remove -/
def ByScore.pending_removal_remove (b : ByScore) (h : Hash) : ByScore :=
  { b with pending_removal := b.pending_removal.erase h }

/-- txpool error enum (error.rs), restricted to the variants the pool
core produces. -/
inductive PoolError where
  | NotInsertedTxPerAccountFull
  | NotInsertedWrongNonce
  | NotInsertedBalanceInsufficient
  | NotInsertedPoolFullIncreaseGas
  | NotReplacedIncreaseGas
  | AlreadyPresent
  | TxAuthorUnknown
  | RemovedTxReplaced
  | RemovedTxOnDemand
  | RemovedTxTimeout
  | RemovedTxUnfunded
  | RemovedTxLimitHit
  | OnNewBlockNonce
  | InternalAccountNotFound
  | InternalAccountObsolete
deriving Repr, DecidableEq

/-- Result type of fallible pool operations (anyhow::Result with the
typed txpool error). -/
inductive Res (α : Type) where
  | ok : α → Res α
  | err : PoolError → Res α
deriving Repr, DecidableEq

/-- pool/account.rs Account: cached AccountInfo plus the per-sender list
of transactions (kept sorted by ascending nonce by the insert path). -/
structure Account where
  info : AccountInfo
  transactions : List Transaction
deriving Repr, DecidableEq

def Account.new (info : AccountInfo) : Account :=
  { info := info, transactions := [] }

/-- Account::remove: position of the hash (panics — `none` — when the
hash is not in the bucket), remove it, report whether the bucket became
empty. -/
def Account.remove (acc : Account) (h : Hash) : Option (Account × Bool) :=
  match acc.transactions.findIdx? (fun t => t.hash == h) with
  | none => none
  | some i =>
    let ts := acc.transactions.eraseIdx i
    some ({ acc with transactions := ts }, ts.isEmpty)

/-- Vec::binary_search_by on the nonce-sorted bucket: `Sum.inl i` when a
transaction with equal nonce sits at index `i`, `Sum.inr i` with the
insertion index otherwise.  (Modelled by linear search / counting, which
agrees with binary search on the sorted lists the pool maintains.) -/
def bsearch_nonce (ts : List Transaction) (n : Nat) : Sum Nat Nat :=
  match ts.findIdx? (fun t => t.nonce == n) with
  | some i => Sum.inl i
  | none => Sum.inr (ts.countP (fun t => decide (t.nonce < n)))

/-- Running-balance fold over the first `k` bucket entries
(`fold(balance, |acum, tx| acum.saturating_sub(tx.cost()))`). -/
def prefixBalance (balance : Nat) (ts : List Transaction) (k : Nat) : Nat :=
  (ts.take k).foldl (fun acum t => acum - t.cost) balance

/-- Vec::insert at index. -/
def insertAt {α : Type} (n : Nat) (a : α) : List α → List α
  | [] => [a]
  | x :: xs =>
    match n with
    | 0 => a :: x :: xs
    | Nat.succ m => x :: insertAt m a xs

/-- The suffix walk at the end of Account::insert: every transaction
whose cost exceeds the running balance is reported; the running balance
is decreased (saturating) by every cost either way. -/
def unfundedWalk (left : Nat) : List Transaction → List Transaction
  | [] => []
  | t :: rest =>
    if t.cost > left then t :: unfundedWalk (left - t.cost) rest
    else unfundedWalk (left - t.cost) rest

/-- BUMP_SCORE_BY_12_5_PERC = 3 (config.rs): the replacement bump is
`old.saturating_add(old >> 3)`. -/
def bumped (old : Nat) : Nat := old + (old >>> 3)

/-- Account::insert (pool/account.rs).  On success returns the updated
bucket, the replaced transaction (same-nonce replacement or the popped
tail when the bucket was full) and the transactions reported as
unfunded by the suffix walk.  Error paths leave the bucket untouched in
the source (all returns happen before any mutation), so the model
returns no bucket on error. -/
def Account.insert (acc : Account) (stx : ScoreTransaction) (maxPerAccount : Nat) :
    Res (Account × Option Transaction × List Transaction) :=
  let ts := acc.transactions
  let search := bsearch_nonce ts stx.tx.nonce
  let insertIndex := Sum.elim id id search
  let balance := prefixBalance acc.info.balance ts insertIndex
  if stx.tx.cost > balance then Res.err PoolError.NotInsertedBalanceInsufficient
  else
    match search with
    | Sum.inr idx =>
      if idx = ts.length ∧ ts.length = maxPerAccount then
        Res.err PoolError.NotInsertedTxPerAccountFull
      else
        let ts1 := insertAt idx stx.tx ts
        let replaced := if ts.length = maxPerAccount then ts1.getLast? else none
        let ts2 := if ts.length = maxPerAccount then ts1.dropLast else ts1
        Res.ok ({ acc with transactions := ts2 }, replaced,
                unfundedWalk balance (ts2.drop insertIndex))
    | Sum.inl idx =>
      let old := ts.getD idx dummyTx
      if stx.tx.gas_limit > bumped old.gas_limit then
        let ts2 := ts.set idx stx.tx
        Res.ok ({ acc with transactions := ts2 }, some old,
                unfundedWalk balance (ts2.drop insertIndex))
      else Res.err PoolError.NotReplacedIncreaseGas

/-- Pool configuration (config.rs); only the fields the embedded
operations read (`max`, `per_account`). -/
structure Config where
  max : Nat
  per_account : Nat
deriving Repr, DecidableEq

/-- transactions.rs BlockInfo -/
structure BlockInfo where
  base_fee : Nat
  hash : Hash
deriving Repr, DecidableEq

/-- Replace the value bound to a key in an association list, or append
the binding (HashMap::insert). -/
def assocSet {β : Type} : List (Nat × β) → Nat → β → List (Nat × β)
  | [], k, v => [(k, v)]
  | (k0, v0) :: rest, k, v =>
    if k0 = k then (k, v) :: rest else (k0, v0) :: assocSet rest k v

/-- HashMap::remove on an association list. -/
def assocRemove {β : Type} (l : List (Nat × β)) (k : Nat) : List (Nat × β) :=
  l.filter (fun p => !(p.1 == k))

/-- pool/transactions.rs Transactions: the three indices plus block info
and config.  (`by_hash` also stores an insertion Instant in the source,
used only by the stalled-entry sweep; wall-clock time is outside the
embedding.) -/
structure Transactions where
  by_account : List (Address × Account)
  by_hash : List (Hash × Transaction)
  by_score : ByScore
  block : BlockInfo
  config : Config
deriving Repr, DecidableEq

def Transactions.new (config : Config) (block : BlockInfo) : Transactions :=
  { by_account := [], by_hash := [], by_score := ⟨[], []⟩,
    block := block, config := config }

/-- Transactions::remove.  A hash not in `by_hash` is a no-op returning
none-removed.  When the hash is present the source panics (`expect`) if
the author has no bucket or the bucket lacks the hash — modelled as
`none`.  An emptied bucket is dropped from `by_account`. -/
def Transactions.remove (s : Transactions) (txhash : Hash) :
    Option (Transactions × Option Transaction) :=
  match s.by_hash.lookup txhash with
  | none => some (s, none)
  | some tx =>
    let byHash := s.by_hash.filter (fun p => !(p.1 == txhash))
    match s.by_account.lookup tx.author with
    | none => none
    | some acct =>
      match Account.remove acct txhash with
      | none => none
      | some (acct2, isEmpty) =>
        let byAccount :=
          if isEmpty then assocRemove s.by_account tx.author
          else assocSet s.by_account tx.author acct2
        match ByScore.remove s.by_score txhash with
        | none => none
        | some bs =>
          some ({ s with by_hash := byHash, by_account := byAccount, by_score := bs },
                some tx)

/-- The commit phase of Transactions::insert once the bucket is in the
map: run Account::insert; on its error the (possibly freshly created,
still empty) bucket stays in `by_account`.  On success: remove the
replaced tx from `by_hash`/`by_score`, clear a stale tombstone for the
new hash, push to `by_score`, add to `by_hash`, remove every unfunded
tx, then evict the by_score top if the global cap is exceeded. -/
def Transactions.insertIntoBucket (s : Transactions) (scoredtx : ScoreTransaction)
    (acct : Account) : Option (Transactions × Res (List (Transaction × PoolError))) :=
  match Account.insert acct scoredtx s.config.per_account with
  | Res.err e => some (s, Res.err e)
  | Res.ok (acct2, replaced, unfunded) =>
    let s1 := { s with by_account := assocSet s.by_account scoredtx.tx.author acct2 }
    let afterReplaced : Option Transactions :=
      match replaced with
      | some rem =>
        (ByScore.remove s1.by_score rem.hash).map (fun bs =>
          { s1 with by_hash := s1.by_hash.filter (fun p => !(p.1 == rem.hash)),
                    by_score := bs })
      | none => some s1
    afterReplaced.bind (fun s2 =>
      let s3 := { s2 with by_score := s2.by_score.pending_removal_remove scoredtx.tx.hash }
      let s4 := { s3 with by_score := s3.by_score.push scoredtx,
                          by_hash := s3.by_hash ++ [(scoredtx.tx.hash, scoredtx.tx)] }
      (unfunded.foldlM
        (fun (st : Transactions × List (Transaction × PoolError)) t =>
          (Transactions.remove st.1 t.hash).map
            (fun r => (r.1, st.2 ++ [(t, PoolError.RemovedTxUnfunded)])))
        (s4, ([] : List (Transaction × PoolError)))).bind (fun st =>
        let s6 := st.1
        let removed :=
          match replaced with
          | some rep => st.2 ++ [(rep, PoolError.RemovedTxReplaced)]
          | none => st.2
        if s6.config.max < s6.by_hash.length then
          match s6.by_score.peek with
          | none => none
          | some worst =>
            (Transactions.remove s6 worst.tx.hash).map (fun r =>
              match r.2 with
              | some remtx => (r.1, Res.ok (removed ++ [(remtx, PoolError.RemovedTxLimitHit)]))
              | none => (r.1, Res.ok removed))
        else some (s6, Res.ok removed)))

/-- Bucket fetch-or-create step of Transactions::insert.  A vacant
sender needs the prefetched account info, bound to the current block
hash, with a nonce check; note the fresh (empty) bucket is put into
`by_account` before Account::insert runs. -/
def Transactions.insertPost (s : Transactions) (scoredtx : ScoreTransaction)
    (account : Option (AccountInfo × Hash)) :
    Option (Transactions × Res (List (Transaction × PoolError))) :=
  match s.by_account.lookup scoredtx.tx.author with
  | some acct => Transactions.insertIntoBucket s scoredtx acct
  | none =>
    match account with
    | none => some (s, Res.err PoolError.InternalAccountNotFound)
    | some (info, bh) =>
      if bh ≠ s.block.hash then some (s, Res.err PoolError.InternalAccountObsolete)
      else if scoredtx.tx.nonce ≤ info.nonce then
        some (s, Res.err PoolError.NotInsertedWrongNonce)
      else
        let fresh := Account.new info
        let s1 := { s with by_account := assocSet s.by_account scoredtx.tx.author fresh }
        Transactions.insertIntoBucket s1 scoredtx fresh

/-- Transactions::insert: duplicate-hash check, scoring, pool-cap
precheck (`peek().unwrap()` panics — `none` — only when the cap test is
reached with an empty heap), then the bucket step. -/
def Transactions.insert (s : Transactions) (tx : Transaction)
    (account : Option (AccountInfo × Hash)) :
    Option (Transactions × Res (List (Transaction × PoolError))) :=
  if (s.by_hash.lookup tx.hash).isSome then some (s, Res.err PoolError.AlreadyPresent)
  else
    let scoredtx := ScoreTransaction.new tx
    if s.config.max ≤ s.by_hash.length then
      match s.by_score.peek with
      | none => none
      | some worst =>
        if scoredtx.score ≤ worst.score then
          some (s, Res.err PoolError.NotInsertedPoolFullIncreaseGas)
        else Transactions.insertPost s scoredtx account
    else Transactions.insertPost s scoredtx account

/-- Insertion sort by the ScoreTransaction Ord; BinaryHeap::into_sorted_vec
returns the elements ascending in the Ord, which by the reversed
comparator is descending score. -/
def insertSorted (t : ScoreTransaction) : List ScoreTransaction → List ScoreTransaction
  | [] => [t]
  | x :: xs => if stLe t x then t :: x :: xs else x :: insertSorted t xs

def sortAsc (l : List ScoreTransaction) : List ScoreTransaction :=
  l.foldr insertSorted []

/-- Transactions::binary_heap_and_accounts: recreate the heap (dropping
tombstones), clone it, and collect the per-sender AccountInfo.  The
caller (Pool::new_pending_block) consumes the third component as the
current block info. -/
def Transactions.binary_heap_and_accounts (s : Transactions) :
    Transactions × List ScoreTransaction × List (Address × AccountInfo) × BlockInfo :=
  let s1 := { s with by_score := s.by_score.recreate_heap }
  (s1, s1.by_score.sorting, s1.by_account.map (fun p => (p.1, p.2.info)), s1.block)

/-- The loop body of Pool::new_pending_block: iterate, stop at the first
transaction whose score is at least the base fee, track a per-author
nonce cursor seeded from the bucket AccountInfo (`expect` — `none` — if
absent), and emit a transaction exactly when its nonce equals the
cursor. -/
def pendingLoop (base_fee : Nat) (infos : List (Address × AccountInfo)) :
    List ScoreTransaction → List (Address × Nat) → List Transaction →
    Option (List Transaction)
  | [], _, out => some out
  | t :: rest, nonces, out =>
    if base_fee ≤ t.score then some out
    else
      match nonces.lookup t.tx.author with
      | some n =>
        if n = t.tx.nonce then
          pendingLoop base_fee infos rest (assocSet nonces t.tx.author (n + 1))
            (out ++ [t.tx])
        else pendingLoop base_fee infos rest nonces out
      | none =>
        match infos.lookup t.tx.author with
        | none => none
        | some info =>
          if info.nonce = t.tx.nonce then
            pendingLoop base_fee infos rest ((t.tx.author, info.nonce + 1) :: nonces)
              (out ++ [t.tx])
          else pendingLoop base_fee infos rest ((t.tx.author, info.nonce) :: nonces) out

/-- Pool::new_pending_block (pool/pool.rs): sort the rebuilt heap, walk
it in reverse (`.rev()` over into_sorted_vec) and run the emission
loop. -/
def Transactions.new_pending_block (s : Transactions) :
    Option (List Transaction × BlockInfo) :=
  let r := s.binary_heap_and_accounts
  let sorted := sortAsc r.2.1
  (pendingLoop r.2.2.2.base_fee r.2.2.1 sorted.reverse [] []).map
    (fun out => (out, r.2.2.2))

/-- Pool::filter_by_negative (pool/pool.rs): iterate the POOL content
(by_hash) and keep the pool hashes that are not in the query set. -/
def Transactions.filter_by_negative (s : Transactions) (tx_hashes : List Hash) :
    List Hash :=
  (s.by_hash.map Prod.fst).filter (fun h => !(tx_hashes.contains h))

/-- peers/peer.rs MAX_KNOWN_TX -/
def MAX_KNOWN_TX : Nat := 1024

/-- Per-peer known-hash state: the HashSet `known` (list with set
semantics) and the VecDeque `known_sorted` (front = most recently
pushed). -/
structure Peer where
  known : List Hash
  known_sorted : List Hash
deriving Repr, DecidableEq

def Peer.empty : Peer := ⟨[], []⟩

def Peer.is_known (p : Peer) (h : Hash) : Bool := p.known.contains h

/-- Peer::insert_known: when the deque is already longer than
MAX_KNOWN_TX, pop the back (oldest) hash and drop it from the set; then
insert into the set and push the hash to the front.  (The popped
back exists whenever the branch is taken; the `getD 0` default is dead.) -/
def Peer.insert_known (p : Peer) (hash : Hash) : Peer :=
  let p1 :=
    if MAX_KNOWN_TX < p.known_sorted.length then
      { known := p.known.erase (p.known_sorted.getLast?.getD 0),
        known_sorted := p.known_sorted.dropLast }
    else p
  { known := if p1.known.contains hash then p1.known else hash :: p1.known,
    known_sorted := hash :: p1.known_sorted }

def Peer.insert_known_list (p : Peer) (hs : List Hash) : Peer :=
  hs.foldl Peer.insert_known p

/-- Peer::pool_new_tx: walk the inserted batch, appending to the
outgoing hash list (and marking known) exactly those hashes for which
`is_known` holds; send NewPooledTransactionHashes only when the list is
non-empty (`none` = nothing sent). -/
def Peer.pool_new_tx (p : Peer) (new : List Transaction) : Peer × Option (List Hash) :=
  let st := new.foldl
    (fun (st : Peer × List Hash) tx =>
      if st.1.is_known tx.hash then (st.1.insert_known tx.hash, st.2 ++ [tx.hash])
      else st)
    (p, ([] : List Hash))
  if st.2.isEmpty then (st.1, none) else (st.1, some st.2)

/-! Concrete inputs used by the claim theorems.  `mkTx h a n gp` builds a
transaction with gas_limit 1 and value 0, so its cost and its score both
equal its gas price `gp`. -/

def mkTx (h a n gp : Nat) : Transaction :=
  { hash := h, author := a, nonce := n, gas_price := gp, gas_limit := 1, value := 0 }

/-- C5 trace: config max = 2, per_account = 10, block (base_fee 0, hash 0),
all senders funded with balance 1000 at nonce 0. -/
def c5Info : AccountInfo := ⟨0, 1000⟩

def c5A : Transaction := mkTx 1 11 1 10

def c5B : Transaction := mkTx 2 12 1 5

def c5C : Transaction := mkTx 3 13 1 20

def c5D : Transaction := mkTx 4 14 1 30

def c5E : Transaction := mkTx 5 15 1 40

/-- The nine-step C5 scenario: insert A and B, remove A (tombstoned, B is
the heap top), re-insert A (untombstones the stale heap copy of A),
remove B, remove A (pops only one of the two heap copies of A), then
fill the pool with C, D and insert E at the cap. -/
def c5Run : Option Transactions := do
  let s0 := Transactions.new ⟨2, 10⟩ ⟨0, 0⟩
  let r1 ← Transactions.insert s0 c5A (some (c5Info, 0))
  let r2 ← Transactions.insert r1.1 c5B (some (c5Info, 0))
  let r3 ← Transactions.remove r2.1 1
  let r4 ← Transactions.insert r3.1 c5A (some (c5Info, 0))
  let r5 ← Transactions.remove r4.1 2
  let r6 ← Transactions.remove r5.1 1
  let r7 ← Transactions.insert r6.1 c5C (some (c5Info, 0))
  let r8 ← Transactions.insert r7.1 c5D (some (c5Info, 0))
  let r9 ← Transactions.insert r8.1 c5E (some (c5Info, 0))
  pure r9.1


/-- C1 inputs: base_fee 5; sender 7 with account nonce 0; first a tx with
nonce 1 / score 10, then a tx with nonce 0 / score 3 (the occupied-bucket
path performs no nonce check). -/
def c1Tx1 : Transaction := mkTx 1 7 1 10

def c1Tx0 : Transaction := mkTx 2 7 0 3

def c1Run : Option (List Transaction × BlockInfo) := do
  let s0 := Transactions.new ⟨100, 10⟩ ⟨5, 0⟩
  let r1 ← Transactions.insert s0 c1Tx1 (some (⟨0, 1000⟩, 0))
  let r2 ← Transactions.insert r1.1 c1Tx0 (some (⟨0, 1000⟩, 0))
  Transactions.new_pending_block r2.1


/-- C2 input: a pool holding exactly the transaction with hash 1. -/
def c2Run : Option Transactions := do
  let s0 := Transactions.new ⟨100, 10⟩ ⟨0, 0⟩
  let r1 ← Transactions.insert s0 (mkTx 1 7 1 10) (some (⟨0, 1000⟩, 0))
  pure r1.1


/-- C9 input: fresh sender 7 with balance 10; a transaction with cost 50. -/
def c9Tx : Transaction :=
  { hash := 9, author := 7, nonce := 1, gas_price := 1, gas_limit := 50, value := 0 }

def c9S0 : Transactions := Transactions.new ⟨100, 10⟩ ⟨0, 0⟩

/-- C3 inputs: bucket of sender 7 with one transaction of nonce 1,
score = gas_limit = 8; the replacement candidates have score =
gas_limit = 9 (exactly the 12.5 percent bump) and 10 (above it). -/
def c3Old : Transaction :=
  { hash := 1, author := 7, nonce := 1, gas_price := 8, gas_limit := 8, value := 0 }

def c3Acct : Account := ⟨⟨0, 1000⟩, [c3Old]⟩

def c3New : Transaction :=
  { hash := 2, author := 7, nonce := 1, gas_price := 9, gas_limit := 9, value := 0 }

def c3WitNew : Transaction :=
  { hash := 2, author := 7, nonce := 1, gas_price := 10, gas_limit := 10, value := 0 }

/-- C6 counterexample inputs: bucket at cap 2 with nonces 1 and 3 (cost
40 each, balance 100); the middle-nonce candidate costs 100. -/
def c6t1 : Transaction :=
  { hash := 1, author := 7, nonce := 1, gas_price := 1, gas_limit := 40, value := 0 }

def c6t3 : Transaction :=
  { hash := 3, author := 7, nonce := 3, gas_price := 1, gas_limit := 40, value := 0 }

def c6CexAcct : Account := ⟨⟨0, 100⟩, [c6t1, c6t3]⟩

def c6CexTx : Transaction :=
  { hash := 2, author := 7, nonce := 2, gas_price := 1, gas_limit := 100, value := 0 }

/-- C6 witness inputs (spec scenario 3): bucket (S,1,10),(S,3,10) at cap
2, inserting (S,2,15). -/
def w6t1 : Transaction := mkTx 1 7 1 10

def w6t3 : Transaction := mkTx 3 7 3 10

def w6Acct : Account := ⟨⟨0, 1000⟩, [w6t1, w6t3]⟩

def w6t2 : Transaction := mkTx 2 7 2 15

/-- C7 inputs: entry with score 1 / hash 5 and entry with score 2 / hash 3. -/
def c7e1 : ScoreTransaction := ScoreTransaction.new (mkTx 5 0 0 1)

def c7e2 : ScoreTransaction := ScoreTransaction.new (mkTx 3 0 0 2)

def c7b : ByScore := ⟨[c7e1, c7e2], []⟩

/-- C10 witness input: a one-element heap. -/
def c10b : ByScore := ⟨[ScoreTransaction.new (mkTx 1 1 1 1)], []⟩

/-- C4 input: a batch with the single transaction of hash 5. -/
def c4Tx : Transaction := mkTx 5 1 1 1

/-- C8 witness input: a peer whose deque already holds 1025 hashes. -/
def c8p : Peer := ⟨[], List.range 1025⟩

/-! # Theorems -/

theorem cmpNat_eq_gt {a b : Nat} : cmpNat a b = Ordering.gt ↔ b < a := by
  unfold cmpNat
  split_ifs <;> simp <;> omega

theorem cmpNat_eq_eq {a b : Nat} : cmpNat a b = Ordering.eq ↔ a = b := by
  unfold cmpNat
  split_ifs <;> simp <;> omega

theorem ordThen_eq_gt (x y : Ordering) :
    x.then y = Ordering.gt ↔ (x = Ordering.gt ∨ (x = Ordering.eq ∧ y = Ordering.gt)) := by
  cases x <;> simp [Ordering.then]

/-- Characterization of the reversed ScoreTransaction Ord: `a ≤ b` holds
exactly when `b` has the smaller score, or equal score and the smaller
hash. -/
theorem stLe_iff {a b : ScoreTransaction} :
    stLe a b = true ↔
      (b.score < a.score ∨ (b.score = a.score ∧ b.tx.hash ≤ a.tx.hash)) := by
  have h1 : stLe a b = true ↔ ¬ (cmpST a b = Ordering.gt) := by
    unfold stLe
    cases hc : cmpST a b <;> simp [hc] <;> decide
  rw [h1]
  simp only [cmpST, ordThen_eq_gt, cmpNat_eq_gt, cmpNat_eq_eq]
  omega

theorem stLe_refl (a : ScoreTransaction) : stLe a a = true := by
  rw [stLe_iff]; right; exact ⟨rfl, le_refl _⟩

theorem stLe_total {a b : ScoreTransaction} (h : ¬ stLe a b = true) :
    stLe b a = true := by
  rw [stLe_iff] at h ⊢
  omega

theorem stLe_trans {a b c : ScoreTransaction} (h1 : stLe a b = true)
    (h2 : stLe b c = true) : stLe a c = true := by
  rw [stLe_iff] at h1 h2 ⊢
  omega

theorem foldl_maxST_spec (ys : List ScoreTransaction) :
    ∀ a : ScoreTransaction,
      (ys.foldl maxST a ∈ a :: ys) ∧ stLe a (ys.foldl maxST a) = true ∧
        ∀ x ∈ ys, stLe x (ys.foldl maxST a) = true := by
  induction ys with
  | nil =>
    intro a
    refine ⟨List.mem_cons_self _ _, stLe_refl a, ?_⟩
    intro x hx
    cases hx
  | cons y ys ih =>
    intro a
    obtain ⟨hmem, hle, hall⟩ := ih (maxST a y)
    have hay : stLe a (maxST a y) = true := by
      by_cases h : stLe a y = true
      · simp [maxST, h]
      · simp [maxST, h, stLe_refl]
    have hyy : stLe y (maxST a y) = true := by
      by_cases h : stLe a y = true
      · simp [maxST, h, stLe_refl]
      · simp [maxST, h, stLe_total h]
    refine ⟨?_, ?_, ?_⟩
    · rw [List.foldl_cons]
      rcases List.mem_cons.mp hmem with hmem | hmem
      · rw [hmem]
        by_cases h : stLe a y = true
        · simp [maxST, h]
        · simp [maxST, h]
      · exact List.mem_cons_of_mem _ (List.mem_cons_of_mem _ hmem)
    · rw [List.foldl_cons]
      exact stLe_trans hay hle
    · intro x hx
      rw [List.foldl_cons]
      rcases List.mem_cons.mp hx with hx | hx
      · rw [hx]; exact stLe_trans hyy hle
      · exact hall x hx

theorem heapMax_spec {l : List ScoreTransaction} {t : ScoreTransaction}
    (h : heapMax l = some t) : t ∈ l ∧ ∀ x ∈ l, stLe x t = true := by
  match l with
  | [] => simp [heapMax] at h
  | x :: xs =>
    simp only [heapMax, Option.some.injEq] at h
    obtain ⟨hmem, hle, hall⟩ := foldl_maxST_spec xs x
    rw [h] at hmem hle hall
    refine ⟨hmem, ?_⟩
    intro z hz
    rcases List.mem_cons.mp hz with hz | hz
    · rw [hz]; exact hle
    · exact hall z hz

/-- Claim C7 counterexample: in a heap holding an entry of score 1 /
hash 5 and an entry of score 2 / hash 3, peek returns the score-1 entry,
which is not of maximal score — refuting that peek returns an entry
whose score is maximal among stored entries. -/
theorem c7_counterexample :
    c7b.peek = some c7e1 ∧ c7e1.score < c7e2.score ∧ c7e2 ∈ c7b.sorting := by
  decide

/-- Claim C7 (amended): the ScoreTransaction Ord reverses both the score
and the hash comparison, so the BinaryHeap top is a MINIMAL-score entry;
for every non-empty index, peek returns an entry whose score is minimal
among stored entries, and among entries of equal minimal score the one
with the SMALLEST hash. -/
theorem c7_peek_minimal (b : ByScore) (t : ScoreTransaction)
    (hpeek : b.peek = some t) :
    t ∈ b.sorting ∧ ∀ x ∈ b.sorting,
      t.score ≤ x.score ∧ (x.score = t.score → t.tx.hash ≤ x.tx.hash) := by
  obtain ⟨hmem, hall⟩ := heapMax_spec hpeek
  refine ⟨hmem, ?_⟩
  intro x hx
  have hc := stLe_iff.mp (hall x hx)
  omega

/-- Claim C7 witness: on the concrete two-entry heap, peek returns the
entry of score 1 and its score is at most the score of the other entry. -/
theorem c7_witness : c7e1 ∈ c7b.sorting ∧ c7e1.score ≤ c7e2.score :=
  ⟨(c7_peek_minimal c7b c7e1 (by decide)).1,
   ((c7_peek_minimal c7b c7e1 (by decide)).2 c7e2 (by decide)).1⟩

/-- Claim C10: ByScore::remove starts with `peek().unwrap()`, so every
call on a ByScore whose heap is empty panics (modelled as `none`); when
the heap is non-empty the unwrap is unreachable and remove is total
(returns some result on every hash). -/
theorem c10_remove_empty_panics :
    (∀ (pr : List Hash) (h : Hash), ByScore.remove ⟨[], pr⟩ h = none) ∧
      ∀ (b : ByScore) (h : Hash), b.sorting ≠ [] →
        (ByScore.remove b h).isSome = true := by
  constructor
  · intro pr h
    rfl
  · intro b h hne
    obtain ⟨x, xs, hx⟩ := List.exists_cons_of_ne_nil hne
    simp only [ByScore.remove, ByScore.peek, hx, heapMax]
    split <;> simp

/-- Claim C10 witness: remove on the empty heap panics; remove on a
concrete one-element heap returns a result. -/
theorem c10_witness :
    ByScore.remove ⟨[], []⟩ 0 = none ∧ (ByScore.remove c10b 1).isSome = true :=
  ⟨c10_remove_empty_panics.1 [] 0, c10_remove_empty_panics.2 c10b 1 (by decide)⟩

/-- Claim C3 counterexample: bucket with one transaction of nonce 1 and
score = gas_limit = 8; the candidate of the same nonce has score =
gas_limit = 9, which satisfies `new.score >= old.score * 1.125`
(8 * 9 = 72 >= 9 * 8 = 72), yet Account::insert rejects it with
NotReplacedIncreaseGas — the code requires STRICTLY more than the
bumped value. -/
theorem c3_counterexample :
    Account.insert c3Acct (ScoreTransaction.new c3New) 16 =
      Res.err PoolError.NotReplacedIncreaseGas ∧
    9 * (ScoreTransaction.new c3Old).score ≤ 8 * (ScoreTransaction.new c3New).score ∧
    9 * c3Old.gas_limit ≤ 8 * c3New.gas_limit := by
  decide

/-- Claim C3 (amended): on a same-nonce hit at index `idx` whose prefix
balance check passes, Account::insert replaces the old transaction
(returning it as replaced, the new transaction set in place) if and only
if the NEW gas_limit is STRICTLY greater than the old gas_limit plus its
shift-by-3 bump (the source compares gas_limit, a stand-in for the
score); otherwise it fails NotReplacedIncreaseGas, the bucket untouched
(every error return in the source happens before any mutation). -/
theorem c3_replacement_bump (acc : Account) (stx : ScoreTransaction)
    (maxPA idx : Nat)
    (hfound : bsearch_nonce acc.transactions stx.tx.nonce = Sum.inl idx)
    (hbal : ¬ stx.tx.cost > prefixBalance acc.info.balance acc.transactions idx) :
    (bumped (acc.transactions.getD idx dummyTx).gas_limit < stx.tx.gas_limit →
      Account.insert acc stx maxPA =
        Res.ok ({ acc with transactions := acc.transactions.set idx stx.tx },
                some (acc.transactions.getD idx dummyTx),
                unfundedWalk (prefixBalance acc.info.balance acc.transactions idx)
                  ((acc.transactions.set idx stx.tx).drop idx))) ∧
    (stx.tx.gas_limit ≤ bumped (acc.transactions.getD idx dummyTx).gas_limit →
      Account.insert acc stx maxPA = Res.err PoolError.NotReplacedIncreaseGas) := by
  constructor <;> intro hgas
  · simp only [Account.insert, hfound, Sum.elim_inl, id_eq, if_neg hbal]
    rw [if_pos hgas]
  · simp only [Account.insert, hfound, Sum.elim_inl, id_eq, if_neg hbal]
    rw [if_neg (by omega :
      ¬ stx.tx.gas_limit > bumped (acc.transactions.getD idx dummyTx).gas_limit)]

/-- Claim C3 witness: replacing the score-8 transaction by a score-10
transaction (strictly above the bump 9) succeeds and returns the old
transaction as replaced. -/
theorem c3_witness :
    Account.insert c3Acct (ScoreTransaction.new c3WitNew) 16 =
      Res.ok (⟨⟨0, 1000⟩, [c3WitNew]⟩, some c3Old, []) := by
  have h := (c3_replacement_bump c3Acct (ScoreTransaction.new c3WitNew) 16 0
    (by decide) (by decide)).1 (by decide)
  exact h.trans (by decide)

theorem insertAt_length {α : Type} (x : α) :
    ∀ (n : Nat) (l : List α), (insertAt n x l).length = l.length + 1 := by
  intro n l
  induction l generalizing n with
  | nil => cases n <;> simp [insertAt]
  | cons y ys ih =>
    cases n with
    | zero => simp [insertAt]
    | succ m => simp [insertAt, ih]

theorem insertAt_cons_of_cons {α : Type} (x y : α) (m : Nat) (ys : List α) :
    ∃ w ws, insertAt m x (y :: ys) = w :: ws := by
  cases m <;> simp [insertAt]

theorem getLast?_insertAt {α : Type} (x : α) :
    ∀ (n : Nat) (l : List α), n < l.length → (insertAt n x l).getLast? = l.getLast? := by
  intro n l
  induction l generalizing n with
  | nil => intro h; simp at h
  | cons y ys ih =>
    intro h
    cases n with
    | zero =>
      show (x :: y :: ys).getLast? = (y :: ys).getLast?
      exact List.getLast?_cons_cons
    | succ m =>
      have hm : m < ys.length := by simpa using h
      have hys : ∃ z zs, ys = z :: zs := by
        cases ys with
        | nil => simp at hm
        | cons z zs => exact ⟨z, zs, rfl⟩
      obtain ⟨z, zs, hz⟩ := hys
      show (y :: insertAt m x ys).getLast? = (y :: ys).getLast?
      obtain ⟨w, ws, hw⟩ := insertAt_cons_of_cons x z m zs
      rw [hz, hw]
      rw [List.getLast?_cons_cons]
      rw [← hw, ← hz, ih m hm, hz]
      exact List.getLast?_cons_cons.symm

/-- Claim C6 counterexample: bucket at cap 2 holding nonces 1 and 3
(cost 40 each, balance 100); inserting a fresh nonce 2 at the earlier
position 1 with cost 100 fails NotInsertedBalanceInsufficient instead of
succeeding — the claim that every earlier-position insert succeeds does
not account for the prefix balance check that runs first. -/
theorem c6_counterexample :
    Account.insert c6CexAcct (ScoreTransaction.new c6CexTx) 2 =
      Res.err PoolError.NotInsertedBalanceInsufficient ∧
    c6CexAcct.transactions.length = 2 ∧
    bsearch_nonce c6CexAcct.transactions (ScoreTransaction.new c6CexTx).tx.nonce =
      Sum.inr 1 := by
  decide

/-- Claim C6 (amended): inserting a fresh nonce into a bucket holding
exactly per_account transactions, provided the prefix balance check
passes: an insertion position at the tail fails
NotInsertedTxPerAccountFull; any earlier position succeeds, the
transaction is inserted at its nonce position, and the bucket tail (the
previous highest-nonce transaction) is evicted and returned as
replaced. -/
theorem c6_full_bucket (acc : Account) (stx : ScoreTransaction) (idx : Nat)
    (hsearch : bsearch_nonce acc.transactions stx.tx.nonce = Sum.inr idx)
    (hbal : ¬ stx.tx.cost > prefixBalance acc.info.balance acc.transactions idx) :
    (idx = acc.transactions.length →
      Account.insert acc stx acc.transactions.length =
        Res.err PoolError.NotInsertedTxPerAccountFull) ∧
    (idx < acc.transactions.length →
      Account.insert acc stx acc.transactions.length =
        Res.ok ({ acc with transactions := (insertAt idx stx.tx acc.transactions).dropLast },
                acc.transactions.getLast?,
                unfundedWalk (prefixBalance acc.info.balance acc.transactions idx)
                  (((insertAt idx stx.tx acc.transactions).dropLast).drop idx))) := by
  constructor <;> intro hidx
  · simp only [Account.insert, hsearch, Sum.elim_inr, id_eq, if_neg hbal]
    rw [if_pos ⟨hidx, trivial⟩]
  · simp only [Account.insert, hsearch, Sum.elim_inr, id_eq, if_neg hbal]
    rw [if_neg (fun hcon => absurd hcon.1 (by omega))]
    simp only [if_true]
    rw [getLast?_insertAt stx.tx idx acc.transactions hidx]

/-- Claim C6 witness (spec scenario 3): from the bucket (S,1,10),(S,3,10)
at cap 2, inserting (S,2,15) succeeds, the bucket becomes
(S,1,10),(S,2,15), and (S,3,10) is evicted as replaced. -/
theorem c6_witness :
    Account.insert w6Acct (ScoreTransaction.new w6t2) 2 =
      Res.ok (⟨⟨0, 1000⟩, [w6t1, w6t2]⟩, some w6t3, []) := by
  have h := (c6_full_bucket w6Acct (ScoreTransaction.new w6t2) 1
    (by decide) (by decide)).2 (by decide)
  exact h.trans (by decide)

theorem insert_known_length (p : Peer) (h : Hash) :
    (p.insert_known h).known_sorted.length =
      if MAX_KNOWN_TX < p.known_sorted.length then p.known_sorted.length
      else p.known_sorted.length + 1 := by
  unfold Peer.insert_known
  split_ifs with hc
  · simp [List.length_dropLast]
    omega
  · simp

theorem insert_known_list_length (hs : List Hash) :
    ∀ p : Peer, p.known_sorted.length ≤ MAX_KNOWN_TX + 1 →
      (p.insert_known_list hs).known_sorted.length =
        min (p.known_sorted.length + hs.length) (MAX_KNOWN_TX + 1) := by
  induction hs with
  | nil =>
    intro p hp
    simp [Peer.insert_known_list]
    omega
  | cons h hs ih =>
    intro p hp
    have hlen := insert_known_length p h
    have hstep : Peer.insert_known_list p (h :: hs) =
        Peer.insert_known_list (p.insert_known h) hs := by
      simp [Peer.insert_known_list]
    rw [hstep, ih (p.insert_known h) (by rw [hlen]; split_ifs <;> omega), hlen]
    split_ifs <;> simp <;> omega

/-- Claim C8 counterexample: after 1026 insert_known calls with distinct
hashes starting from the empty peer state, the known_sorted deque holds
1025 entries — more than MAX_KNOWN_TX = 1024 (the eviction only fires
when the length already EXCEEDS the cap). -/
theorem c8_counterexample :
    MAX_KNOWN_TX < (Peer.empty.insert_known_list (List.range 1026)).known_sorted.length := by
  have h := insert_known_list_length (List.range 1026) Peer.empty (by decide)
  rw [h, List.length_range]
  decide

/-- Claim C8 (amended): for every sequence of insert_known calls from
the empty peer state the known_sorted deque holds at most
MAX_KNOWN_TX + 1 = 1025 entries, and when an insertion finds the deque
longer than MAX_KNOWN_TX it first evicts the least recently added
(back) hash. -/
theorem c8_known_lru :
    (∀ hs : List Hash,
      (Peer.empty.insert_known_list hs).known_sorted.length ≤ MAX_KNOWN_TX + 1) ∧
    ∀ (p : Peer) (h : Hash), MAX_KNOWN_TX < p.known_sorted.length →
      (p.insert_known h).known_sorted = h :: p.known_sorted.dropLast := by
  constructor
  · intro hs
    have h := insert_known_list_length hs Peer.empty (by decide)
    rw [h]
    omega
  · intro p h hp
    simp [Peer.insert_known, hp]

/-- Claim C8 witness: a single insertion stays within the 1025 bound,
and inserting into a peer whose deque holds 1025 hashes evicts the back
hash and pushes the new one to the front. -/
theorem c8_witness :
    (Peer.empty.insert_known_list [5]).known_sorted.length ≤ MAX_KNOWN_TX + 1 ∧
    (c8p.insert_known 7).known_sorted = 7 :: c8p.known_sorted.dropLast :=
  ⟨c8_known_lru.1 [5],
   c8_known_lru.2 c8p 7 (by simp [c8p, List.length_range, MAX_KNOWN_TX])⟩

/-- Claim C1: evaluating Pool::new_pending_block on the pool built by
inserting (sender 7, nonce 1, score 10) and then (sender 7, nonce 0,
score 3) under base_fee 5 returns exactly the score-3 transaction — a
transaction whose score is BELOW the base fee — because the loop breaks
at the first score >= base_fee (inverted filter) after walking the
sorted heap from the worst score up, and matches nonces starting AT
account.nonce instead of account.nonce + 1. -/
theorem c1_pending_block_eval :
    c1Run = some ([c1Tx0], ⟨5, 0⟩) ∧ (ScoreTransaction.new c1Tx0).score < 5 := by
  decide

/-- Claim C2: evaluating Pool::filter_by_negative on a pool holding the
transaction of hash 1 with the query [2] returns [1] — the pool hash not
in the query — instead of the query hashes absent from the pool ([2]). -/
theorem c2_filter_eval :
    c2Run.map (fun s => s.filter_by_negative [2]) = some [1] ∧
    (1 : Hash) ∉ ([2] : List Hash) := by
  decide

/-- Claim C4: Peer::pool_new_tx filters the batch with `is_known`
instead of its negation: a fresh peer receiving the batch [hash 5] sends
nothing, while a peer that already knows hash 5 is sent [5] again. -/
theorem c4_pool_new_tx_eval :
    (Peer.pool_new_tx Peer.empty [c4Tx]).2 = none ∧
    (Peer.pool_new_tx ⟨[5], [5]⟩ [c4Tx]).2 = some [5] := by
  decide

/-- Claim C5: after the nine-operation sequence of c5Run (which plants a
stale, untombstoned copy of hash 1 in the by_score heap), the hash index
holds 3 entries while config.max = 2 — the limit-hit eviction removed
nothing because the heap top was the stale entry. -/
theorem c5_cap_eval :
    c5Run.map (fun s => (s.config.max, s.by_hash.length)) = some (2, 3) := by
  decide

/-- Claim C9: a failed insert (NotInsertedBalanceInsufficient) of a
transaction from a fresh sender leaves the EMPTY bucket of that sender in
by_account: the bucket is created before Account::insert runs and is not
rolled back on error. -/
theorem c9_empty_bucket_eval :
    (Transactions.insert c9S0 c9Tx (some (⟨0, 10⟩, 0))).map
        (fun r => (r.1.by_account, r.2)) =
      some ([(7, Account.mk ⟨0, 10⟩ [])],
            Res.err PoolError.NotInsertedBalanceInsufficient) := by
  decide

end Reth
